import Mathlib

/-!
Verification of the axw/juju-time core: the keyed time-ordered priority queue
(package timequeue), the schedule wrapper (package schedule), and the
exponential backoff delay generator.

Conventions of the shallow embedding:
* `time.Time` and `time.Duration` are both embedded as `Int` (nanoseconds);
  `t.Before u` is `t < u`, `t.After u` is `u < t`, `t.Sub u` is `t - u`,
  `t.Add d` is `t + d`.
* The Go map `m map[interface{}]*queueItem` stores pointers into the heap
  array.  A map entry for `key` aliases the unique array element carrying that
  key, so dereferencing the pointer (as `Queue.Remove` does for its `i` field)
  is embedded as looking up the element with that key in the array; the set of
  map keys is carried explicitly as a list.
* Mutation is embedded as explicit state passing; a Go panic is an
  `Except.error` result.
* The clock capability is embedded by passing `clock.Now()` as an explicit
  `now` argument; `clock.After d` returns a wait-handle which we identify
  with the duration `d` handed to the clock.
-/

namespace JujuTime

/-! ## schedule: retry-delay constants and ExponentialBackoff -/

/-- One `time.Second` in nanoseconds. -/
def second : Int := 1000000000

/-- One `time.Minute` in nanoseconds. -/
def minute : Int := 60 * second

/-- Embeds `const minRetryDelay = 30 * time.Second`. -/
def minRetryDelay : Int := 30 * second

/-- Embeds `const maxRetryDelay = 30 * time.Minute`. -/
def maxRetryDelay : Int := 30 * minute

/-- Embeds `type ExponentialBackoff time.Duration`: the single mutable
duration the backoff strategy carries. -/
structure ExponentialBackoff where
  d : Int
deriving DecidableEq

/-- Two's-complement wrap-around to the int64 range (the numerals are
`2 ^ 63` and `2 ^ 64`): how Go reduces the mathematical result of an
arithmetic operation on `time.Duration`. -/
def wrap64 (x : Int) : Int :=
  (x + 9223372036854775808) % 18446744073709551616 - 9223372036854775808

/-- Embeds `func (e *ExponentialBackoff) Delay() time.Duration`.  The method
mutates the receiver; the embedding returns `(result, new receiver state)`.
`ExponentialBackoff` is Go's int64 `time.Duration`, so the doubling
`*e *= 2` wraps around on overflow (`wrap64`); the comparisons and the other
stores involve no arithmetic that can leave the int64 range. -/
def ExponentialBackoff.Delay (e : ExponentialBackoff) : Int × ExponentialBackoff :=
  let current := e.d
  if e.d < minRetryDelay then
    (current, ⟨minRetryDelay⟩)
  else
    let doubled := wrap64 (e.d * 2)
    if doubled > maxRetryDelay then (current, ⟨maxRetryDelay⟩)
    else (current, ⟨doubled⟩)

/-- A fresh (zero-valued) `ExponentialBackoff`. -/
def ExponentialBackoff.fresh : ExponentialBackoff := ⟨0⟩

/-- State of the backoff after `n` successive `Delay()` calls. -/
def ExponentialBackoff.iterate (e : ExponentialBackoff) : Nat → ExponentialBackoff
  | 0 => e
  | n + 1 => (e.Delay.2).iterate n

/-- The list of values returned by `n` successive `Delay()` calls. -/
def ExponentialBackoff.outputs (e : ExponentialBackoff) : Nat → List Int
  | 0 => []
  | n + 1 => e.Delay.1 :: (e.Delay.2).outputs n

/-! ## timequeue: items és heap operations

Embeds `type queueItem struct { i int; key, value interface{}; t time.Time }`
and the `container/heap` algorithms (`up`, `down`, `heap.Push`, `heap.Pop`,
`heap.Remove`) instantiated at `queueItems`, whose `Less` is
`s[i].t.Before(s[j].t)` and whose `Swap` also updates the stored indices. -/

structure QueueItem (K V : Type) where
  i : Nat
  key : K
  value : V
  t : Int

instance {K V : Type} [Inhabited K] [Inhabited V] : Inhabited (QueueItem K V) :=
  ⟨⟨0, default, default, 0⟩⟩

variable {K V : Type} [DecidableEq K] [Inhabited K] [Inhabited V]

/-- The deadline stored at position `n` (the `t` field read by `Less`). -/
def tAt (s : List (QueueItem K V)) (n : Nat) : Int :=
  (s.getD n default).t

/-- Embeds `queueItems.Swap(i, j)`: exchange positions `i` and `j` and record
the new position in each moved item's `i` field. -/
def Swap (s : List (QueueItem K V)) (i j : Nat) : List (QueueItem K V) :=
  let a := s.getD i default
  let b := s.getD j default
  (s.set i { b with i := i }).set j { a with i := j }

/-- Embeds `container/heap.up(h, j)`: sift the item at `j` towards the root
while it is `Less` than its parent. -/
def up (s : List (QueueItem K V)) (j : Nat) : List (QueueItem K V) :=
  if h : j = 0 then s
  else
    let i := (j - 1) / 2
    if tAt s j < tAt s i then up (Swap s i j) i else s
termination_by j
decreasing_by
  omega

/-- The child of `i` selected by `container/heap.down`: the left child
`2*i+1`, or the right child when it exists and is `Less`. -/
def pickChild (s : List (QueueItem K V)) (i n : Nat) : Nat :=
  let j1 := 2 * i + 1
  if j1 + 1 < n ∧ tAt s (j1 + 1) < tAt s j1 then j1 + 1 else j1

/-- Embeds the loop of `container/heap.down(h, i0, n)`: sift the item at `i`
down within positions `[0, n)`, returning the final state and resting
position (Go's `down` returns `i > i0`, recovered by comparing). -/
def downLoop (s : List (QueueItem K V)) (i n : Nat) : List (QueueItem K V) × Nat :=
  if h : 2 * i + 1 < n then
    let j := pickChild s i n
    if tAt s j < tAt s i then downLoop (Swap s i j) j n else (s, i)
  else (s, i)
termination_by n - i
decreasing_by
  have hj : i < pickChild s i n ∧ pickChild s i n < n := by
    simp only [pickChild]
    split <;> omega
  omega

/-- Embeds `container/heap.Push(h, item)` at `queueItems`: the interface
`Push` appends with `item.i = len(*s)`, then `up` runs from the last index. -/
def Push (s : List (QueueItem K V)) (item : QueueItem K V) : List (QueueItem K V) :=
  up (s ++ [{ item with i := s.length }]) s.length

/-- Embeds `container/heap.Pop(h)` at `queueItems`: swap the root with the
last element, sift down within the shortened range, then remove and return
the last element. -/
def Pop (s : List (QueueItem K V)) : List (QueueItem K V) × QueueItem K V :=
  let n := s.length - 1
  let s1 := Swap s 0 n
  let s2 := (downLoop s1 0 n).1
  (s2.take n, s2.getD n default)

/-- Embeds `container/heap.Remove(h, i)` at `queueItems`: swap position `i`
with the last, sift down, sift up if `down` did not move, then drop the last
element. -/
def RemoveAt (s : List (QueueItem K V)) (i : Nat) : List (QueueItem K V) :=
  let n := s.length - 1
  if i ≠ n then
    let s1 := Swap s i n
    let r := downLoop s1 i n
    let s3 := if i < r.2 then r.1 else up r.1 i
    s3.take n
  else
    s.take n

/-! ## timequeue.Queue -/

/-- Embeds `type Queue struct { time clock.Clock; items queueItems; m map[interface{}]*queueItem }`.
The clock is passed explicitly to the methods that consult it; `m` carries
the key set of the Go map (its values alias the array elements). -/
structure Queue (K V : Type) where
  items : List (QueueItem K V)
  m : List K

/-- Embeds `New(clock)`: empty item array, empty map. -/
def Queue.new : Queue K V := ⟨[], []⟩

/-- Embeds `func (s *Queue) Next() <-chan time.Time`.  The wait-handle
`s.time.After(s.items[0].t.Sub(s.time.Now()))` is identified with the
duration handed to the clock; `nil` is `none`. -/
def Queue.Next (q : Queue K V) (now : Int) : Option Int :=
  if 0 < q.items.length then some ((q.items.getD 0 default).t - now) else none

/-- Embeds `func (s *Queue) Add(key, value interface{}, t time.Time)`.
The duplicate-key panic is an `Except.error`; otherwise the item is recorded
in the map and pushed onto the heap. -/
def Queue.Add (q : Queue K V) (key : K) (value : V) (t : Int) :
    Except String (Queue K V) :=
  if key ∈ q.m then Except.error "duplicate key"
  else Except.ok { items := Push q.items ⟨0, key, value, t⟩, m := key :: q.m }

/-- Embeds `func (s *Queue) Remove(key interface{})`.  The map lookup yields
a pointer to the array element with this key; its `i` field is the heap
position passed to `heap.Remove`.  An absent key is a no-op. -/
def Queue.Remove (q : Queue K V) (key : K) : Queue K V :=
  if key ∈ q.m then
    match q.items.find? (fun it => decide (it.key = key)) with
    | some item => { items := RemoveAt q.items item.i, m := q.m.erase key }
    | none => { items := q.items, m := q.m.erase key }
  else q

/-- The loop of `func (s *Queue) Ready(now time.Time) []interface{}`:
`for len(s.items) > 0 && !s.items[0].t.After(now)` pop the root, delete its
key from the map, and append its value.  `fuel` bounds the iteration count;
`q.items.length` is always sufficient since every `Pop` shortens the array. -/
def readyLoop (now : Int) : Nat → Queue K V → Queue K V × List V
  | 0, q => (q, [])
  | fuel + 1, q =>
    if 0 < q.items.length ∧ tAt q.items 0 ≤ now then
      let r := Pop q.items
      let q1 : Queue K V := ⟨r.1, q.m.erase r.2.key⟩
      let rec1 := readyLoop now fuel q1
      (rec1.1, r.2.value :: rec1.2)
    else (q, [])

/-- Embeds `func (s *Queue) Ready(now time.Time) []interface{}`, returning
the final queue state alongside the popped values. -/
def Queue.Ready (q : Queue K V) (now : Int) : Queue K V × List V :=
  readyLoop now q.items.length q

/-! ## schedule.Schedule -/

/-- Embeds the `Operation` interface: a key together with the delay its
`Delay()` method reports at the moment `Schedule.Add` reads it. -/
structure Operation (K : Type) where
  key : K
  delay : Int

instance {K : Type} [Inhabited K] : Inhabited (Operation K) := ⟨⟨default, 0⟩⟩

/-- Embeds `type Schedule struct { time clock.Clock; q *timequeue.Queue }`. -/
structure Schedule (K : Type) where
  q : Queue K (Operation K)

/-- Embeds `NewSchedule(clock)`. -/
def Schedule.new : Schedule K := ⟨Queue.new⟩

/-- Embeds `func (s *Schedule) Next() <-chan time.Time`. -/
def Schedule.Next (s : Schedule K) (now : Int) : Option Int :=
  s.q.Next now

/-- Embeds `func (s *Schedule) Ready(now time.Time) []Operation`. -/
def Schedule.Ready (s : Schedule K) (now : Int) : Schedule K × List (Operation K) :=
  let r := s.q.Ready now
  (⟨r.1⟩, r.2)

/-- Embeds `func (s *Schedule) Add(op Operation)`: reads `op.Key()` and
`op.Delay()` and calls `s.q.Add(key, op, s.time.Now().Add(delay))`.  The
source function has NO return value besides the mutation (the duplicate-key
panic is the error case); in particular it does not return the computed
deadline. -/
def Schedule.Add (s : Schedule K) (now : Int) (op : Operation K) :
    Except String (Schedule K) :=
  (s.q.Add op.key op (now + op.delay)).map fun q1 => ⟨q1⟩

/-- Embeds `func (s *Schedule) Remove(key interface{})`. -/
def Schedule.Remove (s : Schedule K) (key : K) : Schedule K :=
  ⟨s.q.Remove key⟩

/-! ## Basic list facts used throughout -/

theorem getD_set_self (l : List α) {i : Nat} (h : i < l.length) (b d : α) :
    (l.set i b).getD i d = b := by
  simp [List.getD_eq_getElem?_getD, List.getElem?_set_self, h]

theorem getD_set_ne (l : List α) {i j : Nat} (h : i ≠ j) (b d : α) :
    (l.set i b).getD j d = l.getD j d := by
  simp [List.getD_eq_getElem?_getD, List.getElem?_set_ne h]

theorem getD_append_left (l l2 : List α) {i : Nat} (h : i < l.length) (d : α) :
    (l ++ l2).getD i d = l.getD i d := by
  simp [List.getD_eq_getElem?_getD, List.getElem?_append_left h]

theorem getD_take (l : List α) {n i : Nat} (h : i < n) (d : α) :
    (l.take n).getD i d = l.getD i d := by
  simp [List.getD_eq_getElem?_getD, List.getElem?_take_of_lt h]

theorem getD_eq_get (l : List α) {i : Nat} (h : i < l.length) (d : α) :
    l.getD i d = l.get ⟨i, h⟩ := by
  simp [List.getD_eq_getElem?_getD, List.getElem?_eq_getElem h]

/-- Pulling the element at position `k` to the front while writing `x` into
its place is a permutation of putting `x` at the front. -/
theorem get_cons_set_perm (l : List α) (k : Nat) (hk : k < l.length) (x : α) :
    List.Perm (l.get ⟨k, hk⟩ :: l.set k x) (x :: l) := by
  induction l generalizing k with
  | nil => simp at hk
  | cons y ys ih =>
    cases k with
    | zero => simpa using List.Perm.swap x y ys
    | succ k =>
      have hk' : k < ys.length := by simpa using hk
      refine List.Perm.trans (List.Perm.swap _ _ _) ?_
      refine List.Perm.trans (((ih k hk').cons y)) (List.Perm.swap _ _ _)

/-- Writing the two elements of a transposition is a permutation. -/
theorem set_set_perm (l : List α) (i j : Nat) (hij : i < j) (hj : j < l.length) :
    List.Perm ((l.set i (l.get ⟨j, hj⟩)).set j (l.get ⟨i, Nat.lt_trans hij hj⟩)) l := by
  induction l generalizing i j with
  | nil => simp at hj
  | cons y ys ih =>
    cases i with
    | zero =>
      have hj0 : 0 < j := hij
      obtain ⟨j, rfl⟩ : ∃ j', j = j' + 1 := ⟨j - 1, by omega⟩
      have hj' : j < ys.length := by simpa using hj
      have : ((y :: ys).set 0 ((y :: ys).get ⟨j + 1, hj⟩)).set (j + 1)
            ((y :: ys).get ⟨0, Nat.lt_trans hij hj⟩)
          = ys.get ⟨j, hj'⟩ :: ys.set j y := by
        simp
      rw [this]
      exact get_cons_set_perm ys j hj' y
    | succ i =>
      obtain ⟨j, rfl⟩ : ∃ j', j = j' + 1 := ⟨j - 1, by omega⟩
      have hij' : i < j := by omega
      have hj' : j < ys.length := by simpa using hj
      have : ((y :: ys).set (i + 1) ((y :: ys).get ⟨j + 1, hj⟩)).set (j + 1)
            ((y :: ys).get ⟨i + 1, Nat.lt_trans hij hj⟩)
          = y :: (ys.set i (ys.get ⟨j, hj'⟩)).set j (ys.get ⟨i, Nat.lt_trans hij' hj'⟩) := by
        simp
      rw [this]
      exact (ih i j hij' hj').cons y

/-! ## Payloads and invariant predicates -/

/-- The caller-visible content of an item: key, value and deadline (the `i`
field is heap bookkeeping). -/
def payload {K V : Type} (x : QueueItem K V) : K × V × Int :=
  (x.key, x.value, x.t)

/-- The caller-visible contents of the heap array. -/
def payloads {K V : Type} (s : List (QueueItem K V)) : List (K × V × Int) :=
  s.map payload

/-- The keys stored in the heap array, in array order. -/
def keysOf {K V : Type} (s : List (QueueItem K V)) : List K :=
  s.map (fun x => x.key)

variable {K V : Type} [DecidableEq K] [Inhabited K] [Inhabited V]

/-- Every item records its own array position: `items[i].i == i`. -/
def idxOK (s : List (QueueItem K V)) : Prop :=
  ∀ i, i < s.length → (s.getD i default).i = i

/-- The min-heap ordering on deadlines restricted to positions below `n`:
every non-root position is at least its parent. -/
def heapN (s : List (QueueItem K V)) (n : Nat) : Prop :=
  ∀ c, c < n → 0 < c → tAt s ((c - 1) / 2) ≤ tAt s c

/-- The min-heap ordering on the whole array. -/
def heapOK (s : List (QueueItem K V)) : Prop :=
  heapN s s.length

instance (s : List (QueueItem K V)) : Decidable (idxOK s) := by
  unfold idxOK; infer_instance

instance (s : List (QueueItem K V)) (n : Nat) : Decidable (heapN s n) := by
  unfold heapN; infer_instance

instance (s : List (QueueItem K V)) : Decidable (heapOK s) := by
  unfold heapOK; infer_instance

/-- Well-formedness of a queue: positions recorded in items, min-heap order,
no duplicate keys, and the map's key set coincides with the array's keys. -/
def Queue.WF (q : Queue K V) : Prop :=
  idxOK q.items ∧ heapOK q.items ∧ (keysOf q.items).Nodup ∧ q.m.Nodup ∧
    (∀ k ∈ q.m, k ∈ keysOf q.items) ∧ (∀ k ∈ keysOf q.items, k ∈ q.m)

instance (q : Queue K V) : Decidable q.WF := by
  unfold Queue.WF; infer_instance

/-! ## Swap lemmas -/

theorem length_Swap (s : List (QueueItem K V)) (i j : Nat) :
    (Swap s i j).length = s.length := by
  simp [Swap]

theorem getD_Swap_fst (s : List (QueueItem K V)) {i j : Nat}
    (hi : i < s.length) (hj : j < s.length) :
    (Swap s i j).getD i default = { s.getD j default with i := i } := by
  unfold Swap
  by_cases h : i = j
  · subst h
    rw [getD_set_self _ (by simpa using hi)]
  · rw [getD_set_ne _ (Ne.symm h), getD_set_self _ hi]

theorem getD_Swap_snd (s : List (QueueItem K V)) {i j : Nat}
    (hi : i < s.length) (hj : j < s.length) :
    (Swap s i j).getD j default = { s.getD i default with i := j } := by
  unfold Swap
  rw [getD_set_self _ (by simpa using hj)]

theorem getD_Swap_other (s : List (QueueItem K V)) {i j k : Nat}
    (hki : k ≠ i) (hkj : k ≠ j) :
    (Swap s i j).getD k default = s.getD k default := by
  unfold Swap
  rw [getD_set_ne _ (Ne.symm hkj), getD_set_ne _ (Ne.symm hki)]

theorem tAt_Swap_fst (s : List (QueueItem K V)) {i j : Nat}
    (hi : i < s.length) (hj : j < s.length) :
    tAt (Swap s i j) i = tAt s j := by
  unfold tAt
  rw [getD_Swap_fst s hi hj]

theorem tAt_Swap_snd (s : List (QueueItem K V)) {i j : Nat}
    (hi : i < s.length) (hj : j < s.length) :
    tAt (Swap s i j) j = tAt s i := by
  unfold tAt
  rw [getD_Swap_snd s hi hj]

theorem tAt_Swap_other (s : List (QueueItem K V)) {i j k : Nat}
    (hki : k ≠ i) (hkj : k ≠ j) :
    tAt (Swap s i j) k = tAt s k := by
  unfold tAt
  rw [getD_Swap_other s hki hkj]

theorem idxOK_Swap (s : List (QueueItem K V)) {i j : Nat}
    (hi : i < s.length) (hj : j < s.length) (h : idxOK s) :
    idxOK (Swap s i j) := by
  intro k hk
  rw [length_Swap] at hk
  by_cases hki : k = i
  · subst hki; rw [getD_Swap_fst s hi hj]
  · by_cases hkj : k = j
    · subst hkj; rw [getD_Swap_snd s hi hj]
    · rw [getD_Swap_other s hki hkj]; exact h k hk

/-- Writing an element over itself changes nothing. -/
theorem set_get_self (l : List α) (i : Nat) (hi : i < l.length) :
    l.set i (l.get ⟨i, hi⟩) = l := by
  apply List.ext_getElem
  · simp
  · intro k hk hk'
    rw [List.getElem_set]
    split
    · next h => subst h; rfl
    · rfl

/-- Transposing two positions of a list is a permutation, for any pair of
in-range positions. -/
theorem swap_elems_perm (l : List α) (i j : Nat) (hi : i < l.length) (hj : j < l.length) :
    List.Perm ((l.set i (l.get ⟨j, hj⟩)).set j (l.get ⟨i, hi⟩)) l := by
  rcases Nat.lt_trichotomy i j with hij | rfl | hij
  · exact set_set_perm l i j hij hj
  · rw [List.set_set, set_get_self]
  · rw [List.set_comm _ _ _ (by omega)]
    exact set_set_perm l j i hij hi

theorem payloads_Swap_perm (s : List (QueueItem K V)) {i j : Nat}
    (hi : i < s.length) (hj : j < s.length) :
    List.Perm (payloads (Swap s i j)) (payloads s) := by
  have hmap : ∀ (x : QueueItem K V) (t : List (QueueItem K V)) (k : Nat),
      payloads (t.set k x) = (payloads t).set k (payload x) := by
    intro x t k
    simp [payloads, List.map_set]
  have hpi : i < (payloads s).length := by simpa [payloads] using hi
  have hpj : j < (payloads s).length := by simpa [payloads] using hj
  have e1 : payload ({ s.getD j default with i := i }) = (payloads s).get ⟨j, hpj⟩ := by
    rw [getD_eq_get s hj]
    simp [payload, payloads]
  have e2 : payload ({ s.getD i default with i := j }) = (payloads s).get ⟨i, hpi⟩ := by
    rw [getD_eq_get s hi]
    simp [payload, payloads]
  unfold Swap
  rw [hmap, hmap, e1, e2]
  exact swap_elems_perm (payloads s) i j hpi hpj

/-! ## Lemmas about the sift-up loop -/

theorem length_up (s : List (QueueItem K V)) (j : Nat) :
    (up s j).length = s.length := by
  induction j using Nat.strong_induction_on generalizing s with
  | _ j ih =>
    unfold up
    split
    · rfl
    · next hj =>
      dsimp only
      split
      · rw [ih _ (by omega), length_Swap]
      · rfl

theorem getD_up_of_gt (s : List (QueueItem K V)) {j k : Nat} (hk : j < k) :
    (up s j).getD k default = s.getD k default := by
  induction j using Nat.strong_induction_on generalizing s with
  | _ j ih =>
    unfold up
    split
    · rfl
    · next hj =>
      dsimp only
      split
      · rw [ih _ (by omega) _ (by omega),
          getD_Swap_other s (by omega) (by omega)]
      · rfl

theorem payloads_up_perm (s : List (QueueItem K V)) {j : Nat} (hj : j < s.length) :
    List.Perm (payloads (up s j)) (payloads s) := by
  induction j using Nat.strong_induction_on generalizing s with
  | _ j ih =>
    unfold up
    split
    · exact List.Perm.refl _
    · next hj0 =>
      dsimp only
      split
      · have hi : (j - 1) / 2 < s.length := by omega
        have h1 := ih ((j - 1) / 2) (by omega) (s := Swap s ((j - 1) / 2) j)
          (by rw [length_Swap]; omega)
        exact h1.trans (payloads_Swap_perm s hi hj)
      · exact List.Perm.refl _

theorem idxOK_up (s : List (QueueItem K V)) {j : Nat} (hj : j < s.length)
    (h : idxOK s) : idxOK (up s j) := by
  induction j using Nat.strong_induction_on generalizing s with
  | _ j ih =>
    unfold up
    split
    · exact h
    · next hj0 =>
      dsimp only
      split
      · have hi : (j - 1) / 2 < s.length := by omega
        exact ih ((j - 1) / 2) (by omega) (Swap s ((j - 1) / 2) j)
          (by rw [length_Swap]; omega) (idxOK_Swap s hi hj h)
      · exact h

/-- Correctness of sift-up within the region `[0, n)`.  Hypothesis `h1` says
the heap order holds on every edge not pointing into `j`; `h2` says the
children of `j` are already at least `j`'s parent.  Then `up` restores the
heap order on the whole region. -/
theorem up_heapN {s : List (QueueItem K V)} {n j : Nat} (hn : n ≤ s.length) (hj : j < n)
    (h1 : ∀ c, c < n → 0 < c → c ≠ j → tAt s ((c - 1) / 2) ≤ tAt s c)
    (h2 : ∀ c, c < n → (c - 1) / 2 = j → 0 < j → tAt s ((j - 1) / 2) ≤ tAt s c) :
    heapN (up s j) n := by
  induction j using Nat.strong_induction_on generalizing s with
  | _ j ih =>
    unfold up
    split
    · next hj0 =>
      subst hj0
      intro c hc hc0
      exact h1 c hc hc0 (by omega)
    · next hj0 =>
      dsimp only
      have hjl : j < s.length := by omega
      have hil : (j - 1) / 2 < s.length := by omega
      split
      · next hlt =>
        -- swap with the parent i := (j-1)/2 and recurse from i
        refine ih ((j - 1) / 2) (by omega) (s := Swap s ((j - 1) / 2) j)
          (by rw [length_Swap]; omega) (by omega) ?_ ?_
        · -- h1 for the swapped list, hole now at i
          intro c hc hc0 hci
          by_cases hcj : c = j
          · rw [hcj, tAt_Swap_fst s hil hjl, tAt_Swap_snd s hil hjl]
            exact le_of_lt hlt
          · by_cases hpcj : (c - 1) / 2 = j
            · have hcgt : j < c := by omega
              rw [hpcj, tAt_Swap_snd s hil hjl,
                tAt_Swap_other s (by omega) (by omega)]
              exact h2 c hc hpcj (by omega)
            · by_cases hpci : (c - 1) / 2 = (j - 1) / 2
              · rw [hpci, tAt_Swap_fst s hil hjl,
                  tAt_Swap_other s hci hcj]
                have h1c := h1 c hc hc0 hcj
                rw [hpci] at h1c
                exact le_trans (le_of_lt hlt) h1c
              · rw [tAt_Swap_other s hpci hpcj, tAt_Swap_other s hci hcj]
                exact h1 c hc hc0 hcj
        · -- h2 for the swapped list: children of i sit above i's parent
          intro c hc hpc hi0
          have hgp : ((j - 1) / 2 - 1) / 2 ≠ (j - 1) / 2 := by omega
          have hgpj : ((j - 1) / 2 - 1) / 2 ≠ j := by omega
          rw [tAt_Swap_other s hgp hgpj]
          by_cases hcj : c = j
          · rw [hcj, tAt_Swap_snd s hil hjl]
            exact h1 ((j - 1) / 2) (by omega) hi0 (by omega)
          · have hcne : c ≠ (j - 1) / 2 := by omega
            rw [tAt_Swap_other s hcne hcj]
            refine le_trans (h1 ((j - 1) / 2) (by omega) hi0 (by omega)) ?_
            have := h1 c hc (by omega) hcj
            rw [hpc] at this
            exact this
      · next hge =>
        intro c hc hc0
        by_cases hcj : c = j
        · rw [hcj]
          exact not_lt.mp hge
        · exact h1 c hc hc0 hcj

/-! ## Truncation lemmas -/

theorem heapOK_take (s : List (QueueItem K V)) {n : Nat} (hn : n ≤ s.length)
    (h : heapN s n) : heapOK (s.take n) := by
  intro c hc hc0
  have hc' : c < n := by
    simpa [Nat.lt_min, hn] using hc
  unfold tAt
  rw [getD_take s hc', getD_take s (by omega)]
  exact h c hc' hc0

theorem idxOK_take (s : List (QueueItem K V)) (n : Nat) (h : idxOK s) :
    idxOK (s.take n) := by
  intro k hk
  simp only [List.length_take, Nat.lt_min] at hk
  rw [getD_take s hk.1]
  exact h k hk.2

/-! ## Lemmas about the sift-down loop -/

theorem pickChild_bounds (s : List (QueueItem K V)) {i n : Nat} (h : 2 * i + 1 < n) :
    i < pickChild s i n ∧ pickChild s i n < n := by
  simp only [pickChild]
  split <;> omega

/-- The parent of the selected child is `i`. -/
theorem pickChild_parent (s : List (QueueItem K V)) {i n : Nat} (h : 2 * i + 1 < n) :
    (pickChild s i n - 1) / 2 = i := by
  simp only [pickChild]
  split <;> omega

/-- The selected child carries the smallest deadline among the in-range
children of `i`. -/
theorem pickChild_min (s : List (QueueItem K V)) {i n : Nat} (h : 2 * i + 1 < n) :
    ∀ c, c < n → 0 < c → (c - 1) / 2 = i → tAt s (pickChild s i n) ≤ tAt s c := by
  intro c hc hc0 hpc
  have hc2 : c = 2 * i + 1 ∨ c = 2 * i + 2 := by omega
  simp only [pickChild]
  split
  · next hcond =>
    rcases hc2 with rfl | rfl
    · exact le_of_lt hcond.2
    · exact le_refl _
  · next hcond =>
    rcases hc2 with rfl | rfl
    · exact le_refl _
    · have h3 : ¬ tAt s (2 * i + 1 + 1) < tAt s (2 * i + 1) :=
        fun hlt => hcond ⟨by omega, hlt⟩
      have h4 := not_lt.mp h3
      have e : 2 * i + 1 + 1 = 2 * i + 2 := by omega
      rw [e] at h4
      exact h4

theorem length_downLoop (s : List (QueueItem K V)) (i n : Nat) :
    (downLoop s i n).1.length = s.length := by
  suffices h : ∀ (m : Nat) (s2 : List (QueueItem K V)) (i2 : Nat), n - i2 ≤ m →
      (downLoop s2 i2 n).1.length = s2.length by
    exact h (n - i) s i (le_refl _)
  intro m
  induction m with
  | zero =>
    intro s2 i2 hm
    unfold downLoop
    split
    · omega
    · rfl
  | succ m ih =>
    intro s2 i2 hm
    unfold downLoop
    split
    · next h2 =>
      dsimp only
      have hb := pickChild_bounds s2 h2
      split
      · rw [ih _ _ (by omega), length_Swap]
      · rfl
    · rfl

theorem getD_downLoop_of_ge (s : List (QueueItem K V)) (i n : Nat) {k : Nat}
    (hk : n ≤ k) : (downLoop s i n).1.getD k default = s.getD k default := by
  suffices h : ∀ (m : Nat) (s2 : List (QueueItem K V)) (i2 : Nat), n - i2 ≤ m →
      (downLoop s2 i2 n).1.getD k default = s2.getD k default by
    exact h (n - i) s i (le_refl _)
  intro m
  induction m with
  | zero =>
    intro s2 i2 hm
    unfold downLoop
    split
    · omega
    · rfl
  | succ m ih =>
    intro s2 i2 hm
    unfold downLoop
    split
    · next h2 =>
      dsimp only
      have hb := pickChild_bounds s2 h2
      split
      · rw [ih _ _ (by omega), getD_Swap_other s2 (by omega) (by omega)]
      · rfl
    · rfl

theorem payloads_downLoop_perm (s : List (QueueItem K V)) (i n : Nat)
    (hn : n ≤ s.length) :
    List.Perm (payloads (downLoop s i n).1) (payloads s) := by
  suffices h : ∀ (m : Nat) (s2 : List (QueueItem K V)) (i2 : Nat), n ≤ s2.length →
      n - i2 ≤ m → List.Perm (payloads (downLoop s2 i2 n).1) (payloads s2) by
    exact h (n - i) s i hn (le_refl _)
  intro m
  induction m with
  | zero =>
    intro s2 i2 hn2 hm
    unfold downLoop
    split
    · omega
    · exact List.Perm.refl _
  | succ m ih =>
    intro s2 i2 hn2 hm
    unfold downLoop
    split
    · next h2 =>
      dsimp only
      have hb := pickChild_bounds s2 h2
      split
      · refine List.Perm.trans (ih _ _ (by rw [length_Swap]; omega) (by omega)) ?_
        exact payloads_Swap_perm s2 (by omega) (by omega)
      · exact List.Perm.refl _
    · exact List.Perm.refl _

theorem idxOK_downLoop (s : List (QueueItem K V)) (i n : Nat)
    (hn : n ≤ s.length) (h : idxOK s) : idxOK (downLoop s i n).1 := by
  suffices hs : ∀ (m : Nat) (s2 : List (QueueItem K V)) (i2 : Nat), n ≤ s2.length →
      n - i2 ≤ m → idxOK s2 → idxOK (downLoop s2 i2 n).1 by
    exact hs (n - i) s i hn (le_refl _) h
  intro m
  induction m with
  | zero =>
    intro s2 i2 hn2 hm h2
    unfold downLoop
    split
    · omega
    · exact h2
  | succ m ih =>
    intro s2 i2 hn2 hm h2
    unfold downLoop
    split
    · next hc =>
      dsimp only
      have hb := pickChild_bounds s2 hc
      split
      · exact ih _ _ (by rw [length_Swap]; omega) (by omega)
          (idxOK_Swap s2 (by omega) (by omega) h2)
      · exact h2
    · exact h2

theorem downLoop_resting (s : List (QueueItem K V)) (i n : Nat) (hi : i < n) :
    i ≤ (downLoop s i n).2 ∧ (downLoop s i n).2 < n := by
  suffices h : ∀ (m : Nat) (s2 : List (QueueItem K V)) (i2 : Nat), i2 < n →
      n - i2 ≤ m → i2 ≤ (downLoop s2 i2 n).2 ∧ (downLoop s2 i2 n).2 < n by
    exact h (n - i) s i hi (le_refl _)
  intro m
  induction m with
  | zero =>
    intro s2 i2 hi2 hm
    unfold downLoop
    split
    · omega
    · exact ⟨le_refl _, hi2⟩
  | succ m ih =>
    intro s2 i2 hi2 hm
    unfold downLoop
    split
    · next hc =>
      dsimp only
      have hb := pickChild_bounds s2 hc
      split
      · have := ih (Swap s2 i2 (pickChild s2 i2 n)) (pickChild s2 i2 n)
          (by omega) (by omega)
        omega
      · exact ⟨le_refl _, hi2⟩
    · exact ⟨le_refl _, hi2⟩

/-- Correctness of sift-down in the region `[0, n)`.  Hypothesis `h1` says the
heap order holds on every edge not touching `i`; `h2` says the children of `i`
are at least `i`'s parent.  Conclusions: with the edge into `i` intact the
result is a heap; if the loop moved, the result is a heap regardless; if it
did not move, the list is unchanged and the children of `i` are at least `i`
(the precondition Go's `heap.Remove` relies on before calling `up`). -/
theorem downLoop_heapN (s : List (QueueItem K V)) (i n : Nat)
    (hn : n ≤ s.length) (hi : i < n)
    (h1 : ∀ c, c < n → 0 < c → c ≠ i → (c - 1) / 2 ≠ i → tAt s ((c - 1) / 2) ≤ tAt s c)
    (h2 : ∀ c, c < n → (c - 1) / 2 = i → 0 < i → tAt s ((i - 1) / 2) ≤ tAt s c) :
    ((0 < i → tAt s ((i - 1) / 2) ≤ tAt s i) → heapN (downLoop s i n).1 n)
    ∧ (i < (downLoop s i n).2 → heapN (downLoop s i n).1 n)
    ∧ ((downLoop s i n).2 = i → (downLoop s i n).1 = s ∧
        ∀ c, c < n → (c - 1) / 2 = i → tAt s i ≤ tAt s c) := by
  suffices hgen : ∀ (m : Nat) (s2 : List (QueueItem K V)) (i2 : Nat),
      n ≤ s2.length → i2 < n → n - i2 ≤ m →
      (∀ c, c < n → 0 < c → c ≠ i2 → (c - 1) / 2 ≠ i2 →
        tAt s2 ((c - 1) / 2) ≤ tAt s2 c) →
      (∀ c, c < n → (c - 1) / 2 = i2 → 0 < i2 → tAt s2 ((i2 - 1) / 2) ≤ tAt s2 c) →
      ((0 < i2 → tAt s2 ((i2 - 1) / 2) ≤ tAt s2 i2) → heapN (downLoop s2 i2 n).1 n)
      ∧ (i2 < (downLoop s2 i2 n).2 → heapN (downLoop s2 i2 n).1 n)
      ∧ ((downLoop s2 i2 n).2 = i2 → (downLoop s2 i2 n).1 = s2 ∧
          ∀ c, c < n → (c - 1) / 2 = i2 → tAt s2 i2 ≤ tAt s2 c) by
    exact hgen (n - i) s i hn hi (le_refl _) h1 h2
  intro m
  induction m with
  | zero =>
    intro s2 i2 hn2 hi2 hm hh1 hh2
    exfalso
    omega
  | succ m ih =>
    intro s2 i2 hn2 hi2 hm hh1 hh2
    unfold downLoop
    split
    · next hcth =>
      dsimp only
      have hb := pickChild_bounds s2 hcth
      have hpp := pickChild_parent s2 hcth
      have hil : i2 < s2.length := by omega
      have hjl : pickChild s2 i2 n < s2.length := by omega
      split
      · next hlt =>
        have hd1' : ∀ c, c < n → 0 < c → c ≠ pickChild s2 i2 n →
            (c - 1) / 2 ≠ pickChild s2 i2 n →
            tAt (Swap s2 i2 (pickChild s2 i2 n)) ((c - 1) / 2) ≤
              tAt (Swap s2 i2 (pickChild s2 i2 n)) c := by
          intro c hc hc0 hcj hpcj
          by_cases hci : c = i2
          · rw [hci, tAt_Swap_fst s2 hil hjl,
              tAt_Swap_other s2 (show (i2 - 1) / 2 ≠ i2 by omega)
                (show (i2 - 1) / 2 ≠ pickChild s2 i2 n by omega)]
            exact hh2 (pickChild s2 i2 n) (by omega) hpp (by omega)
          · by_cases hpci : (c - 1) / 2 = i2
            · rw [hpci, tAt_Swap_fst s2 hil hjl, tAt_Swap_other s2 hci hcj]
              exact pickChild_min s2 hcth c hc hc0 hpci
            · rw [tAt_Swap_other s2 hpci hpcj, tAt_Swap_other s2 hci hcj]
              exact hh1 c hc hc0 hci hpci
        have hd2' : ∀ c, c < n → (c - 1) / 2 = pickChild s2 i2 n →
            0 < pickChild s2 i2 n →
            tAt (Swap s2 i2 (pickChild s2 i2 n)) ((pickChild s2 i2 n - 1) / 2) ≤
              tAt (Swap s2 i2 (pickChild s2 i2 n)) c := by
          intro c hc hpc hj0
          rw [hpp, tAt_Swap_fst s2 hil hjl,
            tAt_Swap_other s2 (show c ≠ i2 by omega)
              (show c ≠ pickChild s2 i2 n by omega)]
          have hx := hh1 c hc (by omega) (by omega) (by omega)
          rw [hpc] at hx
          exact hx
        have IH := ih (Swap s2 i2 (pickChild s2 i2 n)) (pickChild s2 i2 n)
          (by rw [length_Swap]; omega) (by omega) (by omega) hd1' hd2'
        have hedge : 0 < pickChild s2 i2 n →
            tAt (Swap s2 i2 (pickChild s2 i2 n)) ((pickChild s2 i2 n - 1) / 2) ≤
              tAt (Swap s2 i2 (pickChild s2 i2 n)) (pickChild s2 i2 n) := by
          intro hj0
          rw [hpp, tAt_Swap_fst s2 hil hjl, tAt_Swap_snd s2 hil hjl]
          exact le_of_lt hlt
        have hheap := IH.1 hedge
        refine ⟨fun _ => hheap, fun _ => hheap, ?_⟩
        intro hrest
        exfalso
        have hres := downLoop_resting (Swap s2 i2 (pickChild s2 i2 n))
          (pickChild s2 i2 n) n (by omega)
        omega
      · next hge =>
        have hstop : ∀ c, c < n → (c - 1) / 2 = i2 → tAt s2 i2 ≤ tAt s2 c := by
          intro c hc hpc
          by_cases hci : c = i2
          · rw [hci]
          · exact le_trans (not_lt.mp hge)
              (pickChild_min s2 hcth c hc (by omega) hpc)
        refine ⟨?_, ?_, fun _ => ⟨rfl, hstop⟩⟩
        · intro he c hc hc0
          by_cases hci : c = i2
          · rw [hci]
            exact he (by omega)
          · by_cases hpci : (c - 1) / 2 = i2
            · rw [hpci]
              exact hstop c hc hpci
            · exact hh1 c hc hc0 hci hpci
        · intro hlt
          simp at hlt
    · next hcel =>
      refine ⟨?_, ?_, ?_⟩
      · intro he c hc hc0
        by_cases hci : c = i2
        · rw [hci]
          exact he (by omega)
        · by_cases hpci : (c - 1) / 2 = i2
          · exfalso
            omega
          · exact hh1 c hc hc0 hci hpci
      · intro hlt
        simp at hlt
      · intro _
        refine ⟨rfl, fun c hc hpc => ?_⟩
        by_cases hci : c = i2
        · rw [hci]
        · exfalso
          omega

/-- In a heap region the root's deadline is minimal. -/
theorem heapN_root_le (s : List (QueueItem K V)) (n : Nat) (h : heapN s n) :
    ∀ j, j < n → tAt s 0 ≤ tAt s j := by
  intro j
  induction j using Nat.strong_induction_on with
  | _ j ih =>
    intro hj
    rcases Nat.eq_zero_or_pos j with rfl | hj0
    · exact le_refl _
    · exact le_trans (ih ((j - 1) / 2) (by omega) (by omega)) (h j hj hj0)

/-! ## Specifications of the heap-interface operations -/

theorem getD_append_last (s : List (QueueItem K V)) (x : QueueItem K V) :
    (s ++ [x]).getD s.length default = x := by
  simp [List.getD_eq_getElem?_getD, List.getElem?_append_right (le_refl s.length)]

theorem take_getD_split (l : List (QueueItem K V)) (n : Nat) (h : l.length = n + 1) :
    l = l.take n ++ [l.getD n default] := by
  conv_lhs => rw [← List.take_append_drop n l]
  congr 1
  rw [List.drop_eq_getElem_cons (by omega)]
  rw [getD_eq_get l (by omega)]
  congr 1
  apply List.eq_nil_of_length_eq_zero
  simp
  omega

/-- The deadline component of a payload triple. -/
def tOf (p : K × V × Int) : Int := p.2.2

theorem mem_payloads_iff (s : List (QueueItem K V)) (p : K × V × Int) :
    p ∈ payloads s ↔ ∃ k, k < s.length ∧ payload (s.getD k default) = p := by
  constructor
  · intro hp
    rcases List.mem_map.mp hp with ⟨x, hx, rfl⟩
    rcases List.mem_iff_get.mp hx with ⟨⟨k, hk⟩, rfl⟩
    exact ⟨k, hk, by rw [getD_eq_get s hk]⟩
  · rintro ⟨k, hk, rfl⟩
    rw [getD_eq_get s hk]
    exact List.mem_map.mpr ⟨s.get ⟨k, hk⟩, List.get_mem s k hk, rfl⟩

/-- In a heap the root's deadline bounds every stored payload's deadline. -/
theorem heapOK_min_payload (s : List (QueueItem K V)) (h : heapOK s) :
    ∀ p ∈ payloads s, (s.getD 0 default).t ≤ tOf p := by
  intro p hp
  rcases (mem_payloads_iff s p).mp hp with ⟨k, hk, rfl⟩
  exact heapN_root_le s s.length h k hk

theorem Push_spec (s : List (QueueItem K V)) (item : QueueItem K V)
    (hidx : idxOK s) (hheap : heapOK s) :
    (Push s item).length = s.length + 1
    ∧ idxOK (Push s item)
    ∧ heapOK (Push s item)
    ∧ List.Perm (payloads (Push s item)) (payload item :: payloads s) := by
  have hlen' : (s ++ [{ item with i := s.length }]).length = s.length + 1 := by simp
  have hidx' : idxOK (s ++ [{ item with i := s.length }]) := by
    intro k hk
    rw [hlen'] at hk
    rcases Nat.lt_or_ge k s.length with hks | hks
    · rw [getD_append_left s _ hks]
      exact hidx k hks
    · have hks' : k = s.length := by omega
      rw [hks', getD_append_last]
  have hl : s.length < (s ++ [{ item with i := s.length }]).length := by
    rw [hlen']; omega
  refine ⟨?_, idxOK_up _ hl hidx', ?_, ?_⟩
  · rw [Push, length_up, hlen']
  · rw [Push]
    have hres := up_heapN (n := s.length + 1) (j := s.length) (by rw [hlen'])
      (by omega) ?_ ?_
    · unfold heapOK
      rw [length_up, hlen']
      exact hres
    · intro c hc hc0 hcj
      have hcs : c < s.length := by omega
      unfold tAt
      rw [getD_append_left s _ hcs, getD_append_left s _ (by omega)]
      exact hheap c hcs hc0
    · intro c hc hpc hj0
      exfalso
      omega
  · rw [Push]
    refine List.Perm.trans (payloads_up_perm _ hl) ?_
    have : payloads (s ++ [{ item with i := s.length }])
        = payloads s ++ [payload item] := by
      simp [payloads, payload]
    rw [this]
    exact List.perm_append_singleton _ _

theorem Pop_spec (s : List (QueueItem K V)) (h0 : 0 < s.length)
    (hidx : idxOK s) (hheap : heapOK s) :
    (Pop s).1.length = s.length - 1
    ∧ idxOK (Pop s).1
    ∧ heapOK (Pop s).1
    ∧ payload (Pop s).2 = payload (s.getD 0 default)
    ∧ (Pop s).2.t = (s.getD 0 default).t
    ∧ List.Perm (payloads s) (payload (Pop s).2 :: payloads (Pop s).1) := by
  rcases Nat.eq_zero_or_pos (s.length - 1) with hn | hn
  · -- single-element list: the swap is position 0 with itself, the loop is empty
    have hs1 : s.length = 1 := by omega
    rcases List.length_eq_one.mp hs1 with ⟨a, rfl⟩
    have hpop : Pop [a] = ([], { a with i := 0 }) := by
      simp [Pop, Swap, downLoop]
    rw [hpop]
    refine ⟨rfl, ?_, ?_, rfl, rfl, ?_⟩
    · intro k hk
      simp at hk
    · intro c hc hc0
      simp at hc
    · exact List.Perm.refl _
  · have hn1 : s.length - 1 < s.length := by omega
    have hlen1 : (Swap s 0 (s.length - 1)).length = s.length := length_Swap s _ _
    have hd := downLoop_heapN (Swap s 0 (s.length - 1)) 0 (s.length - 1)
      (by omega) hn ?_ ?_
    · have hheap2 : heapN (downLoop (Swap s 0 (s.length - 1)) 0 (s.length - 1)).1
          (s.length - 1) := hd.1 (fun h => absurd h (lt_irrefl 0))
      have hlen2 : (downLoop (Swap s 0 (s.length - 1)) 0 (s.length - 1)).1.length
          = s.length := by rw [length_downLoop, hlen1]
      have hlast : (downLoop (Swap s 0 (s.length - 1)) 0 (s.length - 1)).1.getD
          (s.length - 1) default = { s.getD 0 default with i := s.length - 1 } := by
        rw [getD_downLoop_of_ge _ _ _ (le_refl _), getD_Swap_snd s h0 hn1]
      refine ⟨?_, ?_, ?_, ?_, ?_, ?_⟩
      · show ((downLoop (Swap s 0 (s.length - 1)) 0 (s.length - 1)).1.take
          (s.length - 1)).length = s.length - 1
        rw [List.length_take, hlen2]
        omega
      · exact idxOK_take _ _ (idxOK_downLoop _ _ _ (by omega)
          (idxOK_Swap s h0 hn1 hidx))
      · exact heapOK_take _ (by omega) hheap2
      · show payload ((downLoop (Swap s 0 (s.length - 1)) 0 (s.length - 1)).1.getD
          (s.length - 1) default) = payload (s.getD 0 default)
        rw [hlast]
        rfl
      · show ((downLoop (Swap s 0 (s.length - 1)) 0 (s.length - 1)).1.getD
          (s.length - 1) default).t = (s.getD 0 default).t
        rw [hlast]
      · have hsplit := take_getD_split
          (downLoop (Swap s 0 (s.length - 1)) 0 (s.length - 1)).1 (s.length - 1)
          (by omega)
        have hperm : List.Perm (payloads s)
            (payloads (downLoop (Swap s 0 (s.length - 1)) 0 (s.length - 1)).1) :=
          ((payloads_downLoop_perm _ _ _ (by omega)).trans
            (payloads_Swap_perm s h0 hn1)).symm
        refine hperm.trans ?_
        conv_lhs => rw [hsplit]
        have : payloads ((downLoop (Swap s 0 (s.length - 1)) 0 (s.length - 1)).1.take
              (s.length - 1) ++
              [(downLoop (Swap s 0 (s.length - 1)) 0 (s.length - 1)).1.getD
                (s.length - 1) default])
            = payloads ((downLoop (Swap s 0 (s.length - 1)) 0 (s.length - 1)).1.take
              (s.length - 1)) ++
              [payload ((downLoop (Swap s 0 (s.length - 1)) 0 (s.length - 1)).1.getD
                (s.length - 1) default)] := by
          simp [payloads]
        rw [this]
        exact List.perm_append_singleton _ _
    · intro c hc hc0 hci hpci
      unfold tAt
      rw [getD_Swap_other s (by omega) (by omega),
        getD_Swap_other s (by omega) (by omega)]
      exact hheap c (by omega) hc0
    · intro c hc hpc hfalse
      exact absurd hfalse (lt_irrefl 0)

theorem RemoveAt_spec (s : List (QueueItem K V)) (i : Nat) (hi : i < s.length)
    (hidx : idxOK s) (hheap : heapOK s) :
    (RemoveAt s i).length = s.length - 1
    ∧ idxOK (RemoveAt s i)
    ∧ heapOK (RemoveAt s i)
    ∧ List.Perm (payloads s) (payload (s.getD i default) :: payloads (RemoveAt s i)) := by
  have hlen1 : (Swap s i (s.length - 1)).length = s.length := length_Swap s _ _
  unfold RemoveAt
  dsimp only
  by_cases hine : i ≠ s.length - 1
  · rw [if_pos hine]
    -- interior removal: swap with the last element, then sift
    have hin : i < s.length - 1 := by omega
    have hnl : s.length - 1 < s.length := by omega
    have hd1 : ∀ c, c < s.length - 1 → 0 < c → c ≠ i → (c - 1) / 2 ≠ i →
        tAt (Swap s i (s.length - 1)) ((c - 1) / 2) ≤ tAt (Swap s i (s.length - 1)) c := by
      intro c hc hc0 hci hpci
      rw [tAt_Swap_other s hpci (by omega), tAt_Swap_other s hci (by omega)]
      exact hheap c (by omega) hc0
    have hd2 : ∀ c, c < s.length - 1 → (c - 1) / 2 = i → 0 < i →
        tAt (Swap s i (s.length - 1)) ((i - 1) / 2) ≤ tAt (Swap s i (s.length - 1)) c := by
      intro c hc hpc hi0
      rw [tAt_Swap_other s (show (i - 1) / 2 ≠ i by omega) (by omega),
        tAt_Swap_other s (show c ≠ i by omega) (by omega)]
      refine le_trans (hheap i (by omega) hi0) ?_
      have hx := hheap c (by omega) (by omega)
      rw [hpc] at hx
      exact hx
    have hd := downLoop_heapN (Swap s i (s.length - 1)) i (s.length - 1)
      (by omega) hin hd1 hd2
    have hres := downLoop_resting (Swap s i (s.length - 1)) i (s.length - 1) hin
    have hlen2 : (downLoop (Swap s i (s.length - 1)) i (s.length - 1)).1.length
        = s.length := by rw [length_downLoop, hlen1]
    have hperm1 : List.Perm
        (payloads (downLoop (Swap s i (s.length - 1)) i (s.length - 1)).1)
        (payloads s) :=
      (payloads_downLoop_perm _ _ _ (by omega)).trans (payloads_Swap_perm s hi hnl)
    have hlast1 : (downLoop (Swap s i (s.length - 1)) i (s.length - 1)).1.getD
        (s.length - 1) default = { s.getD i default with i := s.length - 1 } := by
      rw [getD_downLoop_of_ge _ _ _ (le_refl _), getD_Swap_snd s hi hnl]
    by_cases hmoved : i < (downLoop (Swap s i (s.length - 1)) i (s.length - 1)).2
    · rw [if_pos hmoved]
      have hheap3 := hd.2.1 hmoved
      refine ⟨?_, ?_, ?_, ?_⟩
      · rw [List.length_take, hlen2]
        omega
      · exact idxOK_take _ _ (idxOK_downLoop _ _ _ (by omega)
          (idxOK_Swap s hi hnl hidx))
      · exact heapOK_take _ (by omega) hheap3
      · have hsplit := take_getD_split
          (downLoop (Swap s i (s.length - 1)) i (s.length - 1)).1 (s.length - 1)
          (by omega)
        refine (hperm1.symm).trans ?_
        conv_lhs => rw [hsplit]
        have heq : payloads
            ((downLoop (Swap s i (s.length - 1)) i (s.length - 1)).1.take
              (s.length - 1) ++
              [(downLoop (Swap s i (s.length - 1)) i (s.length - 1)).1.getD
                (s.length - 1) default])
            = payloads ((downLoop (Swap s i (s.length - 1)) i (s.length - 1)).1.take
              (s.length - 1)) ++
              [payload (s.getD i default)] := by
          rw [hlast1]
          simp [payloads, payload]
        rw [heq]
        exact List.perm_append_singleton _ _
    · rw [if_neg hmoved]
      have hr2 : (downLoop (Swap s i (s.length - 1)) i (s.length - 1)).2 = i := by
        omega
      have hstop := (hd.2.2 hr2).2
      have hr1 : (downLoop (Swap s i (s.length - 1)) i (s.length - 1)).1
          = Swap s i (s.length - 1) := (hd.2.2 hr2).1
      rw [hr1]
      have hupheap : heapN (up (Swap s i (s.length - 1)) i) (s.length - 1) := by
        refine up_heapN (by omega) hin ?_ hd2
        intro c hc hc0 hci
        by_cases hpci : (c - 1) / 2 = i
        · rw [hpci]
          exact hstop c hc hpci
        · exact hd1 c hc hc0 hci hpci
      have hulen : (up (Swap s i (s.length - 1)) i).length = s.length := by
        rw [length_up, hlen1]
      have hlast2 : (up (Swap s i (s.length - 1)) i).getD (s.length - 1) default
          = { s.getD i default with i := s.length - 1 } := by
        rw [getD_up_of_gt _ hin, getD_Swap_snd s hi hnl]
      refine ⟨?_, ?_, ?_, ?_⟩
      · rw [List.length_take, hulen]
        omega
      · exact idxOK_take _ _ (idxOK_up _ (by omega) (idxOK_Swap s hi hnl hidx))
      · exact heapOK_take _ (by omega) hupheap
      · have hperm2 : List.Perm (payloads (up (Swap s i (s.length - 1)) i))
            (payloads s) :=
          (payloads_up_perm _ (by omega)).trans (payloads_Swap_perm s hi hnl)
        have hsplit := take_getD_split (up (Swap s i (s.length - 1)) i)
          (s.length - 1) (by omega)
        refine (hperm2.symm).trans ?_
        conv_lhs => rw [hsplit]
        have heq : payloads ((up (Swap s i (s.length - 1)) i).take (s.length - 1) ++
              [(up (Swap s i (s.length - 1)) i).getD (s.length - 1) default])
            = payloads ((up (Swap s i (s.length - 1)) i).take (s.length - 1)) ++
              [payload (s.getD i default)] := by
          rw [hlast2]
          simp [payloads, payload]
        rw [heq]
        exact List.perm_append_singleton _ _
  · rw [if_neg hine]
    -- removing the last element: just shrink the array
    have hie : i = s.length - 1 := by omega
    refine ⟨?_, idxOK_take s _ hidx, ?_, ?_⟩
    · rw [List.length_take]
      omega
    · exact heapOK_take s (by omega) (fun c hc hc0 => hheap c (by omega) hc0)
    · have hsplit := take_getD_split s (s.length - 1) (by omega)
      conv_lhs => rw [hsplit]
      have heq : payloads (s.take (s.length - 1) ++ [s.getD (s.length - 1) default])
          = payloads (s.take (s.length - 1)) ++ [payload (s.getD i default)] := by
        rw [hie]
        simp [payloads]
      rw [heq]
      exact List.perm_append_singleton _ _

/-! ## Queue-level specifications -/

theorem keysOf_eq_map (s : List (QueueItem K V)) :
    keysOf s = (payloads s).map (fun p => p.1) := by
  simp [keysOf, payloads, payload, List.map_map]

theorem keysOf_perm {a b : List (QueueItem K V)}
    (h : List.Perm (payloads a) (payloads b)) :
    List.Perm (keysOf a) (keysOf b) := by
  rw [keysOf_eq_map, keysOf_eq_map]
  exact h.map _

theorem mem_keysOf_iff (s : List (QueueItem K V)) (k : K) :
    k ∈ keysOf s ↔ ∃ p ∈ payloads s, p.1 = k := by
  rw [keysOf_eq_map]
  simp

/-- Specification of a successful `Queue.Add`: the new item is recorded in
the heap and the map, well-formedness is preserved. -/
theorem Add_spec (q : Queue K V) (key : K) (value : V) (t : Int)
    (hwf : q.WF) (hk : key ∉ q.m) :
    ∃ q2 : Queue K V, q.Add key value t = Except.ok q2 ∧ q2.WF
      ∧ List.Perm (payloads q2.items) ((key, value, t) :: payloads q.items)
      ∧ q2.m = key :: q.m
      ∧ q2.items.length = q.items.length + 1 := by
  obtain ⟨hidx, hheap, hkeys, hm, hmk, hkm⟩ := hwf
  have hp := Push_spec q.items (⟨0, key, value, t⟩ : QueueItem K V) hidx hheap
  have hknotin : key ∉ keysOf q.items := fun hin => hk (hkm key hin)
  have hpayload : payload (⟨0, key, value, t⟩ : QueueItem K V) = (key, value, t) := rfl
  refine ⟨⟨Push q.items ⟨0, key, value, t⟩, key :: q.m⟩, ?_, ?_, ?_, rfl, hp.1⟩
  · rw [Queue.Add, if_neg hk]
  · have hkp : List.Perm (keysOf (Push q.items ⟨0, key, value, t⟩))
        (key :: keysOf q.items) := by
      have := keysOf_perm (a := Push q.items ⟨0, key, value, t⟩)
        (b := (⟨0, key, value, t⟩ : QueueItem K V) :: q.items) ?_
      · simpa [keysOf] using this
      · show List.Perm _ (payloads ((⟨0, key, value, t⟩ : QueueItem K V) :: q.items))
        simpa [payloads, hpayload] using hp.2.2.2
    refine ⟨hp.2.1, hp.2.2.1, ?_, ?_, ?_, ?_⟩
    · exact (hkp.nodup_iff).mpr (List.nodup_cons.mpr ⟨hknotin, hkeys⟩)
    · exact List.nodup_cons.mpr ⟨hk, hm⟩
    · intro k hkm2
      rcases List.mem_cons.mp hkm2 with rfl | hkm2
      · exact (hkp.mem_iff).mpr (List.mem_cons_self _ _)
      · exact (hkp.mem_iff).mpr (List.mem_cons_of_mem _ (hmk k hkm2))
    · intro k hkk
      rcases List.mem_cons.mp ((hkp.mem_iff).mp hkk) with rfl | hkk2
      · exact List.mem_cons_self _ _
      · exact List.mem_cons_of_mem _ (hkm k hkk2)
  · rw [← hpayload]
    exact hp.2.2.2

/-- Embeds the absent-key branch of `Queue.Remove`: a strict no-op. -/
theorem Remove_absent (q : Queue K V) (key : K) (hk : key ∉ q.m) :
    q.Remove key = q := by
  rw [Queue.Remove, if_neg hk]

/-- Specification of `Queue.Remove` for a present key: exactly the item with
that key leaves the heap, the key leaves the map, and well-formedness is
preserved. -/
theorem Remove_present_spec (q : Queue K V) (key : K) (hwf : q.WF)
    (hk : key ∈ q.m) :
    ∃ v t, List.Perm (payloads q.items) ((key, v, t) :: payloads (q.Remove key).items)
      ∧ (q.Remove key).WF
      ∧ (q.Remove key).m = q.m.erase key
      ∧ (q.Remove key).items.length = q.items.length - 1 := by
  obtain ⟨hidx, hheap, hkeys, hm, hmk, hkm⟩ := hwf
  -- the pointer stored in the map is the unique array element with this key
  have hkin : key ∈ keysOf q.items := hmk key hk
  have hfind : ∃ item, q.items.find? (fun it => decide (it.key = key)) = some item := by
    rcases (mem_keysOf_iff q.items key).mp hkin with ⟨p, hp, hp1⟩
    rcases (mem_payloads_iff q.items p).mp hp with ⟨j, hj, hpj⟩
    have hmem : (q.items.getD j default) ∈ q.items := by
      rw [getD_eq_get q.items hj]
      exact List.get_mem q.items j hj
    have hsome : (q.items.find? (fun it => decide (it.key = key))).isSome := by
      rw [List.find?_isSome]
      refine ⟨q.items.getD j default, hmem, ?_⟩
      simp only [decide_eq_true_eq]
      have : (payload (q.items.getD j default)).1 = key := by rw [hpj, hp1]
      exact this
    exact ⟨(q.items.find? (fun it => decide (it.key = key))).get hsome,
      Option.eq_some_of_isSome hsome⟩
  obtain ⟨item, hitem⟩ := hfind
  have hitemkey : item.key = key := by
    have := List.find?_some hitem
    simpa using this
  have hitemmem : item ∈ q.items := List.mem_of_find?_eq_some hitem
  obtain ⟨⟨j, hj⟩, hget⟩ := List.mem_iff_get.mp hitemmem
  have hitemi : item.i = j := by
    have := hidx j hj
    rw [getD_eq_get q.items hj, hget] at this
    exact this
  have hgetD : q.items.getD item.i default = item := by
    rw [hitemi, getD_eq_get q.items hj, hget]
  have hil : item.i < q.items.length := by rw [hitemi]; exact hj
  have hrem : q.Remove key =
      { items := RemoveAt q.items item.i, m := q.m.erase key } := by
    rw [Queue.Remove, if_pos hk, hitem]
  have hra := RemoveAt_spec q.items item.i hil hidx hheap
  have hpl : payload item = (key, item.value, item.t) := by
    rw [← hitemkey]
    rfl
  have hperm : List.Perm (payloads q.items)
      ((key, item.value, item.t) :: payloads (RemoveAt q.items item.i)) := by
    have := hra.2.2.2
    rw [hgetD, hpl] at this
    exact this
  have hkperm : List.Perm (keysOf q.items)
      (key :: keysOf (RemoveAt q.items item.i)) := by
    have := keysOf_perm (a := q.items)
      (b := (⟨0, key, item.value, item.t⟩ : QueueItem K V) :: RemoveAt q.items item.i)
      (by simpa [payloads, payload] using hperm)
    simpa [keysOf] using this
  have hnodup2 : (key :: keysOf (RemoveAt q.items item.i)).Nodup :=
    (hkperm.nodup_iff).mp hkeys
  have hknot : key ∉ keysOf (RemoveAt q.items item.i) :=
    (List.nodup_cons.mp hnodup2).1
  refine ⟨item.value, item.t, ?_, ?_, ?_, ?_⟩
  · rw [hrem]
    exact hperm
  · rw [hrem]
    refine ⟨hra.2.1, hra.2.2.1, (List.nodup_cons.mp hnodup2).2, hm.erase key, ?_, ?_⟩
    · intro k hk2
      have hk3 := (hm.mem_erase_iff).mp hk2
      have hk4 : k ∈ keysOf q.items := hmk k hk3.2
      rcases List.mem_cons.mp ((hkperm.mem_iff).mp hk4) with rfl | hk5
      · exact absurd rfl hk3.1
      · exact hk5
    · intro k hk2
      have hk3 : k ∈ keysOf q.items :=
        (hkperm.mem_iff).mpr (List.mem_cons_of_mem _ hk2)
      have hk4 : k ∈ q.m := hkm k hk3
      have hk5 : k ≠ key := fun h => hknot (h ▸ hk2)
      exact (hm.mem_erase_iff).mpr ⟨hk5, hk4⟩
  · rw [hrem]
  · rw [hrem]
    exact hra.1

/-- A new queue is well-formed. -/
theorem new_WF : (Queue.new : Queue K V).WF := by
  refine ⟨?_, ?_, ?_, ?_, ?_, ?_⟩ <;> simp [Queue.new, idxOK, heapOK, heapN, keysOf]

/-! ## Specification of the Ready drain loop -/

theorem readyLoop_zero (now : Int) (q : Queue K V) :
    readyLoop now 0 q = (q, []) := rfl

theorem readyLoop_stop (now : Int) (fuel : Nat) (q : Queue K V)
    (hc : ¬(0 < q.items.length ∧ tAt q.items 0 ≤ now)) :
    readyLoop now (fuel + 1) q = (q, []) := by
  rw [readyLoop, if_neg hc]

theorem readyLoop_step (now : Int) (fuel : Nat) (q : Queue K V)
    (hc : 0 < q.items.length ∧ tAt q.items 0 ≤ now) :
    readyLoop now (fuel + 1) q =
      ((readyLoop now fuel ⟨(Pop q.items).1, q.m.erase (Pop q.items).2.key⟩).1,
        (Pop q.items).2.value ::
          (readyLoop now fuel ⟨(Pop q.items).1, q.m.erase (Pop q.items).2.key⟩).2) := by
  rw [readyLoop, if_pos hc]

/-- Popping the root off a nonempty well-formed queue and erasing its key
from the map preserves well-formedness. -/
theorem Pop_queue_WF (q : Queue K V) (hwf : q.WF) (h0 : 0 < q.items.length) :
    (Queue.mk (Pop q.items).1 (q.m.erase (Pop q.items).2.key)).WF := by
  obtain ⟨hidx, hheap, hkeys, hm, hmk, hkm⟩ := hwf
  have hp := Pop_spec q.items h0 hidx hheap
  have hperm := hp.2.2.2.2.2
  have hkperm : List.Perm (keysOf q.items)
      ((Pop q.items).2.key :: keysOf (Pop q.items).1) := by
    have := keysOf_perm (a := q.items)
      (b := (⟨0, (Pop q.items).2.key, (Pop q.items).2.value, (Pop q.items).2.t⟩ :
        QueueItem K V) :: (Pop q.items).1)
      (by simpa [payloads, payload] using hperm)
    simpa [keysOf] using this
  have hnodup2 : ((Pop q.items).2.key :: keysOf (Pop q.items).1).Nodup :=
    (hkperm.nodup_iff).mp hkeys
  have hknot : (Pop q.items).2.key ∉ keysOf (Pop q.items).1 :=
    (List.nodup_cons.mp hnodup2).1
  refine ⟨hp.2.1, hp.2.2.1, (List.nodup_cons.mp hnodup2).2,
    hm.erase _, ?_, ?_⟩
  · intro k hk2
    have hk3 := (hm.mem_erase_iff).mp hk2
    have hk4 : k ∈ keysOf q.items := hmk k hk3.2
    rcases List.mem_cons.mp ((hkperm.mem_iff).mp hk4) with rfl | hk5
    · exact absurd rfl hk3.1
    · exact hk5
  · intro k hk2
    have hk3 : k ∈ keysOf q.items :=
      (hkperm.mem_iff).mpr (List.mem_cons_of_mem _ hk2)
    have hk5 : k ≠ (Pop q.items).2.key := fun h => hknot (h ▸ hk2)
    exact (hm.mem_erase_iff).mpr ⟨hk5, hkm k hk3⟩

theorem readyLoop_spec (now : Int) :
    ∀ (fuel : Nat) (q : Queue K V), q.items.length ≤ fuel → q.WF →
    ∃ popped : List (QueueItem K V),
      (readyLoop now fuel q).2 = popped.map (fun it => it.value)
      ∧ (∀ it ∈ popped, it.t ≤ now)
      ∧ popped.Pairwise (fun a b => a.t ≤ b.t)
      ∧ List.Perm (payloads q.items)
          (popped.map payload ++ payloads (readyLoop now fuel q).1.items)
      ∧ (∀ p ∈ payloads (readyLoop now fuel q).1.items, now < tOf p)
      ∧ (readyLoop now fuel q).1.WF := by
  intro fuel
  induction fuel with
  | zero =>
    intro q hlen hwf
    have hnil : q.items = [] := List.length_eq_zero.mp (by omega)
    refine ⟨[], rfl, by simp, List.Pairwise.nil,
      by rw [readyLoop_zero]; exact List.Perm.refl _, ?_, hwf⟩
    rw [readyLoop_zero]
    intro p hp
    rw [hnil] at hp
    simp [payloads] at hp
  | succ fuel ih =>
    intro q hlen hwf
    by_cases hc : 0 < q.items.length ∧ tAt q.items 0 ≤ now
    · -- pop the root and recurse
      have hp := Pop_spec q.items hc.1 hwf.1 hwf.2.1
      have hq1wf := Pop_queue_WF q hwf hc.1
      have hq1len : (Pop q.items).1.length ≤ fuel := by
        have := hp.1
        omega
      obtain ⟨popped, hmap, hbound, hpair, hperm, hrem, hwf2⟩ :=
        ih ⟨(Pop q.items).1, q.m.erase (Pop q.items).2.key⟩ hq1len hq1wf
      -- the popped root is minimal among everything still in the queue
      have hmin := heapOK_min_payload q.items hwf.2.1
      have hroott : (Pop q.items).2.t = (q.items.getD 0 default).t := hp.2.2.2.2.1
      have hpermq : List.Perm (payloads q.items)
          (payload (Pop q.items).2 :: payloads (Pop q.items).1) := hp.2.2.2.2.2
      have hsubmem : ∀ it ∈ popped, payload it ∈ payloads (Pop q.items).1 := by
        intro it hit
        exact (hperm.mem_iff (a := payload it)).mpr
          (List.mem_append_left _ (List.mem_map_of_mem payload hit))
      have hminpop : ∀ it ∈ popped, (Pop q.items).2.t ≤ it.t := by
        intro it hit
        have h1 : payload it ∈ payloads q.items :=
          (hpermq.mem_iff).mpr (List.mem_cons_of_mem _ (hsubmem it hit))
        have h2 := hmin _ h1
        rw [hroott]
        exact h2
      refine ⟨(Pop q.items).2 :: popped, ?_, ?_, ?_, ?_, ?_, ?_⟩
      · rw [readyLoop_step now fuel q hc]
        simpa using hmap
      · intro it hit
        rcases List.mem_cons.mp hit with rfl | hit2
        · rw [hroott]
          exact hc.2
        · exact hbound it hit2
      · exact List.pairwise_cons.mpr ⟨hminpop, hpair⟩
      · rw [readyLoop_step now fuel q hc]
        refine hpermq.trans ?_
        simpa using hperm.cons (payload (Pop q.items).2)
      · rw [readyLoop_step now fuel q hc]
        exact hrem
      · rw [readyLoop_step now fuel q hc]
        exact hwf2
    · -- nothing (more) is ready
      rw [readyLoop_stop now fuel q hc]
      refine ⟨[], rfl, by simp, List.Pairwise.nil, List.Perm.refl _, ?_, hwf⟩
      intro p hp
      rcases Nat.eq_zero_or_pos q.items.length with h0 | h0
      · rw [List.length_eq_zero.mp h0] at hp
        simp [payloads] at hp
      · have hroot : now < tAt q.items 0 := by
          rcases Decidable.not_and_iff_or_not.mp hc with h | h
          · exact absurd h0 h
          · exact not_le.mp h
        exact lt_of_lt_of_le hroot (heapOK_min_payload q.items hwf.2.1 p hp)

/-- Specification of `Queue.Ready`: it pops exactly the items due at or
before `now`, in non-decreasing deadline order, keeps everything else, and
preserves well-formedness (hence keeps the key index in sync). -/
theorem Ready_spec (q : Queue K V) (now : Int) (hwf : q.WF) :
    ∃ popped : List (QueueItem K V),
      (q.Ready now).2 = popped.map (fun it => it.value)
      ∧ (∀ it ∈ popped, it.t ≤ now)
      ∧ popped.Pairwise (fun a b => a.t ≤ b.t)
      ∧ List.Perm (payloads q.items)
          (popped.map payload ++ payloads (q.Ready now).1.items)
      ∧ (∀ p ∈ payloads (q.Ready now).1.items, now < tOf p)
      ∧ (q.Ready now).1.WF :=
  readyLoop_spec now q.items.length q (le_refl _) hwf

/-! ## Sequences of queue operations -/

/-- One client-visible mutation of a `Queue`. -/
inductive QOp (K V : Type) where
  | add (key : K) (value : V) (t : Int)
  | remove (key : K)
  | ready (now : Int)

/-- Apply one operation.  A duplicate-key `Add` panics in the source; the
panic happens before any mutation, so the state at that point is the
unchanged queue. -/
def applyOp (q : Queue K V) : QOp K V → Queue K V
  | .add key value t =>
    match q.Add key value t with
    | .ok q2 => q2
    | .error _ => q
  | .remove key => q.Remove key
  | .ready now => (q.Ready now).1

/-- Apply a sequence of operations to a queue, left to right. -/
def applyOps (q : Queue K V) (ops : List (QOp K V)) : Queue K V :=
  ops.foldl applyOp q

theorem applyOp_WF (q : Queue K V) (op : QOp K V) (hwf : q.WF) :
    (applyOp q op).WF := by
  cases op with
  | add key value t =>
    by_cases hk : key ∈ q.m
    · have : q.Add key value t = Except.error "duplicate key" := by
        rw [Queue.Add, if_pos hk]
      simp [applyOp, this]
      exact hwf
    · obtain ⟨q2, heq, hwf2, -⟩ := Add_spec q key value t hwf hk
      simp [applyOp, heq]
      exact hwf2
  | remove key =>
    by_cases hk : key ∈ q.m
    · exact (Remove_present_spec q key hwf hk).choose_spec.choose_spec.2.1
    · show (q.Remove key).WF
      rw [Remove_absent q key hk]
      exact hwf
  | ready now =>
    exact (Ready_spec q now hwf).choose_spec.2.2.2.2.2

theorem applyOps_WF (ops : List (QOp K V)) (q : Queue K V) (hwf : q.WF) :
    (applyOps q ops).WF := by
  induction ops generalizing q with
  | nil => exact hwf
  | cons op ops ih => exact ih (applyOp q op) (applyOp_WF q op hwf)

/-! ## Backoff facts -/

/-- Every branch of `Delay()` returns the pre-update duration. -/
theorem Delay_fst (e : ExponentialBackoff) : e.Delay.1 = e.d := by
  unfold ExponentialBackoff.Delay
  split
  · rfl
  · dsimp only
    split <;> rfl

theorem iterate_succ_apply (e : ExponentialBackoff) (n : Nat) :
    e.iterate (n + 1) = (e.iterate n).Delay.2 := by
  induction n generalizing e with
  | zero => rfl
  | succ n ih =>
    show (e.Delay.2).iterate (n + 1) = _
    rw [ih e.Delay.2]
    rfl

/-- The wrap is the identity on values already inside the int64 range. -/
theorem wrap64_eq_self {x : Int} (h1 : -9223372036854775808 ≤ x)
    (h2 : x < 9223372036854775808) : wrap64 x = x := by
  unfold wrap64
  rw [Int.emod_eq_of_lt (by omega) (by omega)]
  omega

theorem wrap64_pow_form (x : Int) :
    wrap64 x = (x + 2 ^ 63) % 2 ^ 64 - 2 ^ 63 := by
  norm_num [wrap64]

/-- After one `Delay()` call from a state in `[0, ceiling]` the stored
duration lies in `[floor, ceiling]`; the doubling of such a state cannot
overflow int64, so the wrap is the identity there. -/
theorem Delay_state_bounds (e : ExponentialBackoff) (h0 : 0 ≤ e.d)
    (hle : e.d ≤ maxRetryDelay) :
    minRetryDelay ≤ e.Delay.2.d ∧ e.Delay.2.d ≤ maxRetryDelay := by
  have hmm : minRetryDelay ≤ maxRetryDelay := by decide
  have hmax : maxRetryDelay = 1800000000000 := by decide
  have hle2 : e.d ≤ 1800000000000 := hmax ▸ hle
  have hw : wrap64 (e.d * 2) = e.d * 2 := wrap64_eq_self (by omega) (by omega)
  unfold ExponentialBackoff.Delay
  split
  · exact ⟨le_refl _, hmm⟩
  · next hge =>
    dsimp only
    rw [hw]
    split
    · exact ⟨hmm, le_refl _⟩
    · next hgt =>
      constructor
      · show minRetryDelay ≤ e.d * 2
        have h2 : minRetryDelay ≤ e.d := not_lt.mp hge
        linarith
      · show e.d * 2 ≤ maxRetryDelay
        exact not_lt.mp hgt

theorem iterate_bounds : ∀ n : Nat,
    0 ≤ (ExponentialBackoff.fresh.iterate n).d
    ∧ (ExponentialBackoff.fresh.iterate n).d ≤ maxRetryDelay := by
  intro n
  induction n with
  | zero => exact ⟨le_refl _, by decide⟩
  | succ n ih =>
    rw [iterate_succ_apply]
    have h := Delay_state_bounds _ ih.1 ih.2
    have : (0 : Int) ≤ minRetryDelay := by decide
    exact ⟨le_trans this h.1, h.2⟩

/-- Sift-up from the root is the identity. -/
theorem up_zero (s : List (QueueItem K V)) : up s 0 = s := by
  unfold up
  simp

/-- A concrete well-formed queue used by the claim witnesses (the state the
repo's own TestNext scenario reaches after its four Adds and first Ready). -/
def qcw : Queue Nat Nat :=
  ⟨[⟨0, 1, 101, 1500⟩, ⟨1, 3, 103, 2500⟩, ⟨2, 2, 102, 2000⟩, ⟨3, 0, 100, 3000⟩],
    [3, 2, 1, 0]⟩

/-! ## Claim theorems -/

/-- C1 counterexample: on a fresh (zero-valued) `ExponentialBackoff` the
first `Delay()` call returns 0, not the 30-second floor; the floor is stored
but the pre-update value is returned. -/
theorem claim_C1_counterexample :
    ExponentialBackoff.fresh.Delay.1 = 0
    ∧ ExponentialBackoff.fresh.Delay.2.d = minRetryDelay
    ∧ ExponentialBackoff.fresh.Delay.1 ≠ minRetryDelay := by
  decide

/-- C1 (amended): when the stored duration is below the 30-second floor,
`Delay()` stores the floor and returns the *previous* stored value, so
successive calls on a fresh instance return 0, 30s, 1m, 2m, 4m, 8m, 16m,
30m, 30m, … holding at the 30-minute ceiling. -/
theorem claim_C1 :
    (∀ e : ExponentialBackoff, e.d < minRetryDelay →
      e.Delay.1 = e.d ∧ e.Delay.2.d = minRetryDelay)
    ∧ ExponentialBackoff.fresh.outputs 9 =
      [0, 30 * second, minute, 2 * minute, 4 * minute, 8 * minute, 16 * minute,
        30 * minute, 30 * minute] := by
  constructor
  · intro e he
    refine ⟨Delay_fst e, ?_⟩
    unfold ExponentialBackoff.Delay
    rw [if_pos he]
  · decide

theorem claim_C1_witness :
    (⟨0⟩ : ExponentialBackoff).d < minRetryDelay
    ∧ ((⟨0⟩ : ExponentialBackoff).Delay.1 = (⟨0⟩ : ExponentialBackoff).d
      ∧ (⟨0⟩ : ExponentialBackoff).Delay.2.d = minRetryDelay) :=
  ⟨by decide, claim_C1.1 ⟨0⟩ (by decide)⟩

/-- C8 counterexample: the int64 state `d = 2^62` (= 4611686018427387904 ns)
is at or above the floor, but Go's `*e *= 2` wraps its doubling to
`-2^63` (= -9223372036854775808), which is not greater than the ceiling, so
the wrapped negative value is stored — not `min(2·d, 30m) = 30m` as the
claim asserts for every state `d ≥` floor. -/
theorem claim_C8_counterexample :
    minRetryDelay ≤ (⟨4611686018427387904⟩ : ExponentialBackoff).d
    ∧ (4611686018427387904 : Int) = 2 ^ 62
    ∧ (⟨4611686018427387904⟩ : ExponentialBackoff).Delay.2.d = -9223372036854775808
    ∧ (-9223372036854775808 : Int) = -(2 ^ 63)
    ∧ (⟨4611686018427387904⟩ : ExponentialBackoff).Delay.2.d
        ≠ min (2 * (⟨4611686018427387904⟩ : ExponentialBackoff).d) maxRetryDelay := by
  refine ⟨by decide, by norm_num, by decide, by norm_num, by decide⟩

/-- C8 (amended): for every backoff state `d` at or above the 30-second
floor whose doubling stays inside int64 (`2·d < 2^63`) — which includes
every state reachable from the zero state, since those never exceed the
30-minute ceiling — `Delay()` stores `min(2·d, 30m)` as the new state and
returns the previous value `d`; in particular once at the ceiling it stays
at the ceiling. -/
theorem claim_C8 (e : ExponentialBackoff) (h : minRetryDelay ≤ e.d)
    (hov : 2 * e.d < 9223372036854775808) :
    e.Delay.1 = e.d
    ∧ e.Delay.2.d = min (2 * e.d) maxRetryDelay
    ∧ (e.d = maxRetryDelay → e.Delay.2.d = maxRetryDelay) := by
  have h1 : ¬ e.d < minRetryDelay := not_lt.mpr h
  have hmin : minRetryDelay = 30000000000 := by decide
  have hw : wrap64 (e.d * 2) = e.d * 2 :=
    wrap64_eq_self (by omega) (by omega)
  have hmain : e.Delay.2.d = min (2 * e.d) maxRetryDelay := by
    unfold ExponentialBackoff.Delay
    rw [if_neg h1]
    dsimp only
    rw [hw]
    split
    · next hgt =>
      show maxRetryDelay = min (2 * e.d) maxRetryDelay
      rw [min_eq_right (by omega)]
    · next hng =>
      show e.d * 2 = min (2 * e.d) maxRetryDelay
      rw [min_eq_left (by omega)]
      omega
  refine ⟨Delay_fst e, hmain, ?_⟩
  intro hmax
  rw [hmain, hmax]
  rw [min_eq_right (by decide)]

theorem claim_C8_witness :
    minRetryDelay ≤ (⟨minRetryDelay⟩ : ExponentialBackoff).d
    ∧ 2 * (⟨minRetryDelay⟩ : ExponentialBackoff).d < 9223372036854775808
    ∧ ((⟨minRetryDelay⟩ : ExponentialBackoff).Delay.1
        = (⟨minRetryDelay⟩ : ExponentialBackoff).d
      ∧ (⟨minRetryDelay⟩ : ExponentialBackoff).Delay.2.d
        = min (2 * (⟨minRetryDelay⟩ : ExponentialBackoff).d) maxRetryDelay
      ∧ ((⟨minRetryDelay⟩ : ExponentialBackoff).d = maxRetryDelay →
        (⟨minRetryDelay⟩ : ExponentialBackoff).Delay.2.d = maxRetryDelay)) :=
  ⟨by decide, by decide, claim_C8 ⟨minRetryDelay⟩ (by decide) (by decide)⟩

/-- C10: starting from the zero state, after any positive number of
`Delay()` calls the stored duration lies in `[30s, 30m]`, and every value
`Delay()` ever returns is at most 30m. -/
theorem claim_C10 (n : Nat) (h : 0 < n) :
    minRetryDelay ≤ (ExponentialBackoff.fresh.iterate n).d
    ∧ (ExponentialBackoff.fresh.iterate n).d ≤ maxRetryDelay
    ∧ (∀ m : Nat, (ExponentialBackoff.fresh.iterate m).Delay.1 ≤ maxRetryDelay) := by
  obtain ⟨n, rfl⟩ : ∃ m, n = m + 1 := ⟨n - 1, by omega⟩
  rw [iterate_succ_apply]
  have hb := iterate_bounds n
  have hs := Delay_state_bounds _ hb.1 hb.2
  refine ⟨hs.1, hs.2, fun m => ?_⟩
  rw [Delay_fst]
  exact (iterate_bounds m).2

theorem claim_C10_witness :
    0 < 1
    ∧ (minRetryDelay ≤ (ExponentialBackoff.fresh.iterate 1).d
      ∧ (ExponentialBackoff.fresh.iterate 1).d ≤ maxRetryDelay
      ∧ (∀ m : Nat, (ExponentialBackoff.fresh.iterate m).Delay.1 ≤ maxRetryDelay)) :=
  ⟨by decide, claim_C10 1 (by decide)⟩

/-- C2: at the failing input (fresh schedule, clock at 0, operation with key
0 and delay 5) the embedded `Schedule.Add` does read the key and the delay
and inserts the operation with absolute deadline `now + delay = 5`, but its
result carries only the updated schedule: the source function has no return
value, although the repo's own TestExponentialBackoff assigns
`t := s.Add(op)` and asserts `t` equals the deadline. -/
theorem claim_C2 :
    (Schedule.new : Schedule Nat).Add 0 ⟨0, 5⟩
      = Except.ok ⟨⟨[⟨0, 0, ⟨0, 5⟩, 5⟩], [0]⟩⟩ := by
  rw [Schedule.Add, Queue.Add]
  rw [if_neg (by simp [Schedule.new, Queue.new])]
  show Except.ok (⟨⟨Push [] ⟨0, 0, ⟨0, 5⟩, 0 + 5⟩, [0]⟩⟩ : Schedule Nat) = _
  rw [Push]
  simp [up_zero]

/-- C3: `Ready(now)` returns exactly the values of the items with deadline
at most `now`, in non-decreasing deadline order, removes them from the heap
and (via preserved well-formedness) from the key index, and keeps every item
with deadline after `now`. -/
theorem claim_C3 (q : Queue K V) (now : Int) (hwf : q.WF) :
    ∃ popped : List (QueueItem K V),
      (q.Ready now).2 = popped.map (fun it => it.value)
      ∧ (∀ it ∈ popped, it.t ≤ now)
      ∧ popped.Pairwise (fun a b => a.t ≤ b.t)
      ∧ List.Perm (payloads q.items)
          (popped.map payload ++ payloads (q.Ready now).1.items)
      ∧ (∀ p ∈ payloads (q.Ready now).1.items, now < tOf p)
      ∧ (q.Ready now).1.WF :=
  Ready_spec q now hwf

theorem claim_C3_witness :
    qcw.WF
    ∧ ∃ popped : List (QueueItem Nat Nat),
      (qcw.Ready 2500).2 = popped.map (fun it => it.value)
      ∧ (∀ it ∈ popped, it.t ≤ 2500)
      ∧ popped.Pairwise (fun a b => a.t ≤ b.t)
      ∧ List.Perm (payloads qcw.items)
          (popped.map payload ++ payloads (qcw.Ready 2500).1.items)
      ∧ (∀ p ∈ payloads (qcw.Ready 2500).1.items, 2500 < tOf p)
      ∧ (qcw.Ready 2500).1.WF :=
  ⟨by decide, claim_C3 qcw 2500 (by decide)⟩

/-- C4: after any sequence of Add, Remove and Ready calls on a new queue,
every item records its own position (`items[i].i == i`), every non-root
deadline is at least its parent's, and the key index holds exactly the keys
of the heap array. -/
theorem claim_C4 (ops : List (QOp K V)) :
    idxOK (applyOps (Queue.new : Queue K V) ops).items
    ∧ heapOK (applyOps (Queue.new : Queue K V) ops).items
    ∧ (∀ k, k ∈ (applyOps (Queue.new : Queue K V) ops).m ↔
        k ∈ keysOf (applyOps (Queue.new : Queue K V) ops).items) := by
  have h := applyOps_WF ops Queue.new new_WF
  exact ⟨h.1, h.2.1, fun k => ⟨h.2.2.2.2.1 k, h.2.2.2.2.2 k⟩⟩

/-- C5: adding a key that is already present signals the duplicate-key
condition (the Go code panics before any mutation, so the queue object is
untouched; the embedding returns the error and no queue). -/
theorem claim_C5 (q : Queue K V) (key : K) (value : V) (t : Int)
    (hk : key ∈ q.m) :
    q.Add key value t = Except.error "duplicate key"
    ∧ applyOp q (QOp.add key value t) = q := by
  have herr : q.Add key value t = Except.error "duplicate key" := by
    rw [Queue.Add, if_pos hk]
  exact ⟨herr, by simp [applyOp, herr]⟩

theorem claim_C5_witness :
    2 ∈ qcw.m
    ∧ (qcw.Add 2 999 7 = Except.error "duplicate key"
      ∧ applyOp qcw (QOp.add 2 999 7) = qcw) :=
  ⟨by decide, claim_C5 qcw 2 999 7 (by decide)⟩

/-- C6: removing an absent key leaves the queue completely unchanged and does
not fail; removing a present key deletes exactly that item from the heap and
the key from the index. -/
theorem claim_C6 (q : Queue K V) (key : K) (hwf : q.WF) :
    (key ∉ q.m → q.Remove key = q)
    ∧ (key ∈ q.m → ∃ v t,
        List.Perm (payloads q.items) ((key, v, t) :: payloads (q.Remove key).items)
        ∧ key ∉ (q.Remove key).m
        ∧ (q.Remove key).WF) := by
  constructor
  · exact Remove_absent q key
  · intro hk
    obtain ⟨v, t, hperm, hwf2, hm2, -⟩ := Remove_present_spec q key hwf hk
    refine ⟨v, t, hperm, ?_, hwf2⟩
    rw [hm2]
    intro hmem
    exact absurd ((hwf.2.2.2.1.mem_erase_iff).mp hmem).1 (by simp)

theorem claim_C6_witness :
    qcw.WF
    ∧ ((3 ∉ qcw.m → qcw.Remove 3 = qcw)
      ∧ (3 ∈ qcw.m → ∃ v t,
          List.Perm (payloads qcw.items)
            ((3, v, t) :: payloads (qcw.Remove 3).items)
          ∧ 3 ∉ (qcw.Remove 3).m
          ∧ (qcw.Remove 3).WF)) :=
  ⟨by decide, claim_C6 qcw 3 (by decide)⟩

/-- C7: `Next()` yields nothing exactly when the queue is empty; otherwise
the wait-handle it obtains from the clock covers the duration from `now` to
the deadline at the current heap root, which is the earliest deadline.
The embedding is a function of the current state, so the handle always
reflects the current root rather than a cached value. -/
theorem claim_C7 (q : Queue K V) (now : Int) (hwf : q.WF) :
    (q.Next now = none ↔ q.items = [])
    ∧ (0 < q.items.length →
        q.Next now = some ((q.items.getD 0 default).t - now)
        ∧ ∀ p ∈ payloads q.items, (q.items.getD 0 default).t ≤ tOf p) := by
  constructor
  · constructor
    · intro hn
      by_contra hne
      rw [Queue.Next, if_pos (List.length_pos.mpr hne)] at hn
      simp at hn
    · intro he
      rw [Queue.Next, if_neg (by simp [he])]
  · intro h0
    exact ⟨by rw [Queue.Next, if_pos h0], heapOK_min_payload q.items hwf.2.1⟩

theorem claim_C7_witness :
    qcw.WF
    ∧ ((qcw.Next 100 = none ↔ qcw.items = [])
      ∧ (0 < qcw.items.length →
          qcw.Next 100 = some ((qcw.items.getD 0 default).t - 100)
          ∧ ∀ p ∈ payloads qcw.items, (qcw.items.getD 0 default).t ≤ tOf p)) :=
  ⟨by decide, claim_C7 qcw 100 (by decide)⟩

/-- C9: adding a fresh key or removing some other key never disturbs an
existing item: its key, value and deadline remain present unchanged. -/
theorem claim_C9 (q : Queue K V) (k k2 k3 : K) (v : V) (t : Int) (v2 : V) (t2 : Int)
    (hwf : q.WF) (hne2 : k ≠ k2) (hne3 : k ≠ k3)
    (hmem : (k, v, t) ∈ payloads q.items) :
    (∀ q2 : Queue K V, k2 ∉ q.m → q.Add k2 v2 t2 = Except.ok q2 →
      (k, v, t) ∈ payloads q2.items)
    ∧ (k, v, t) ∈ payloads (q.Remove k3).items := by
  constructor
  · intro q2 hk2 heq
    obtain ⟨q2x, heqx, hwfx, hpermx, -⟩ := Add_spec q k2 v2 t2 hwf hk2
    rw [heq] at heqx
    injection heqx with h2
    rw [← h2] at hpermx
    exact (hpermx.mem_iff).mpr (List.mem_cons_of_mem _ hmem)
  · by_cases hk3m : k3 ∈ q.m
    · obtain ⟨vx, tx, hperm, -⟩ := Remove_present_spec q k3 hwf hk3m
      rcases List.mem_cons.mp ((hperm.mem_iff).mp hmem) with heq | h
      · exact absurd (congrArg Prod.fst heq) hne3
      · exact h
    · rw [Remove_absent q k3 hk3m]
      exact hmem

theorem claim_C9_witness :
    qcw.WF ∧ (1 : Nat) ≠ 9 ∧ (1 : Nat) ≠ 3
    ∧ ((1 : Nat), (101 : Nat), (1500 : Int)) ∈ payloads qcw.items
    ∧ ((∀ q2 : Queue Nat Nat, 9 ∉ qcw.m → qcw.Add 9 909 77 = Except.ok q2 →
        ((1 : Nat), (101 : Nat), (1500 : Int)) ∈ payloads q2.items)
      ∧ ((1 : Nat), (101 : Nat), (1500 : Int)) ∈ payloads (qcw.Remove 3).items) := by
  refine ⟨by decide, by decide, by decide, by decide, ?_⟩
  exact claim_C9 qcw 1 9 3 101 1500 909 77 (by decide) (by decide) (by decide) (by decide)

end JujuTime
